import Mathlib

/-!
Verification development for the SmartBuy deal-alert script (`script.py`).

The script fetches a page, parses it with BeautifulSoup, and scans the
resulting DOM tree for `a` tags whose text contains a requested keyword and
whose nearby "posted N hours/days ago" indicator is fresh.  The HTTP fetch,
the HTML parser and the Gmail API are external collaborators; the embedding
therefore starts from the parsed DOM tree (`Node`) and models the matching
core `search_for_products` and the message composer `compose_message`
faithfully, including the fixed-offset traversal and the dict semantics.

Python runtime errors raised inside the matcher (StopIteration from
`next(islice(...))`, IndexError from `list(...)[i]`, AttributeError from
taking `.children` of a string node) are all uncaught structural errors;
they are modelled uniformly as `Except.error ()`.
-/

set_option autoImplicit false
set_option maxRecDepth 8192

namespace SmartBuy

/-- A node of the parsed HTML tree (BeautifulSoup's view): either a tag with
a name, attributes and children in document order, or a navigable string. -/
inductive Node where
  | elem (tag : String) (attrs : List (String × String)) (children : List Node)
  | text (s : String)
deriving Repr

/-- Direct children of a node.  A string node has none (in Python, taking
`.children` of a NavigableString raises, which the caller models as a
structural error via the empty list). -/
def Node.childNodes : Node → List Node
  | .elem _ _ cs => cs
  | .text _ => []

mutual
/-- `get_text` / `.text`: concatenation of every string in the subtree. -/
def Node.getText : Node → String
  | .text s => s
  | .elem _ _ cs => Node.getTextList cs

def Node.getTextList : List Node → String
  | [] => ""
  | c :: cs => Node.getText c ++ Node.getTextList cs
end

/-- BeautifulSoup's `.string`: a string node is its own string; a tag with a
single child has that child's string; any other tag has none. -/
def Node.nodeString : Node → Option String
  | .text s => some s
  | .elem _ _ [c] => Node.nodeString c
  | .elem _ _ _ => none

/-- `a.get(key, "")`: the value of the first attribute named `key`, or `""`. -/
def Node.getAttr (n : Node) (key : String) : String :=
  match n with
  | .elem _ attrs _ => ((attrs.find? (fun kv => kv.1 == key)).map Prod.snd).getD ""
  | .text _ => ""

mutual
/-- `soup.find_all("a")` with ancestor context: every `a` tag of the subtree
in document order, each paired with its chain of ancestors, nearest parent
first (the chain ends with the document root, as `a.parents` does). -/
def findAnchors (anc : List Node) : Node → List (Node × List Node)
  | .text _ => []
  | .elem t attrs cs =>
    (if t == "a" then [(Node.elem t attrs cs, anc)] else [])
      ++ findAnchorsList (Node.elem t attrs cs :: anc) cs

def findAnchorsList (anc : List Node) : List Node → List (Node × List Node)
  | [] => []
  | c :: cs => findAnchors anc c ++ findAnchorsList anc cs
end

/-- All anchors of a document with their ancestor chains. -/
def findAll (root : Node) : List (Node × List Node) :=
  findAnchors [] root

/-- Python `str.lower()` (ASCII case, the only case the script exercises). -/
def pyLower (s : String) : String :=
  ⟨s.data.map Char.toLower⟩

/-- Does `hay` start with `needle`? -/
def startsWithChars : List Char → List Char → Bool
  | [], _ => true
  | _ :: _, [] => false
  | c :: cs, d :: ds => c == d && startsWithChars cs ds

/-- Substring occurrence on character lists. -/
def hasSubstrChars (needle : List Char) : List Char → Bool
  | [] => startsWithChars needle []
  | d :: ds => startsWithChars needle (d :: ds) || hasSubstrChars needle ds

/-- Python's `needle in hay` on strings. -/
def strIn (needle hay : String) : Bool :=
  hasSubstrChars needle.data hay.data

/-- Line 42: `a.string is not None and p in a.string.lower() and a.get("href", "")`.
`p` is the already-lowercased keyword; the `and`-chain is truthy iff the
anchor has a direct string containing `p` (case-folded) and a non-empty href. -/
def anchorPasses (p : String) (a : Node) : Bool :=
  match a.nodeString with
  | none => false
  | some s => strIn p (pyLower s) && a.getAttr "href" != ""

/-- Lines 43-45: `next(itertools.islice(a.parents, 4, None))` — skip the
first four ancestors and take the next one; `none` models StopIteration. -/
def fifthParent (ancestors : List Node) : Option Node :=
  (ancestors.drop 4).head?

/-- Lines 43-48: the complete fixed traversal producing the freshness text:
5th ancestor, its 4th child, that node's 4th child, the text of that node's
2nd child.  `none` models the uncaught structural error. -/
def indicatorText (ancestors : List Node) : Option String := do
  let anc ← fifthParent ancestors
  let c1 ← anc.childNodes.get? 3
  let c2 ← c1.childNodes.get? 3
  let c3 ← c2.childNodes.get? 1
  pure c3.getText

/-- Line 49: `"שעות" in date_text or "1 ימים" in date_text`. -/
def dateIsToday (dateText : String) : Bool :=
  strIn "שעות" dateText || strIn "1 ימים" dateText

/-- A Python dict `str -> list[str]` in insertion order. -/
abbrev MatchSet := List (String × List String)

/-- Line 51: `matches.setdefault(p, []).append(v)` — append `v` to the entry
of `k`, creating the entry at the end when `k` is absent. -/
def setdefaultAppend (k v : String) : MatchSet → MatchSet
  | [] => [(k, [v])]
  | (k0, vs) :: rest =>
    if k0 == k then (k0, vs ++ [v]) :: rest
    else (k0, vs) :: setdefaultAppend k v rest

/-- The body of the inner loop (lines 42-51) for one keyword/anchor pair:
skip non-passing anchors; for a passing anchor run the fixed traversal
(error when the structure is missing) and record the href when fresh. -/
def stepAnchor (p : String) (am : Node × List Node) (m : MatchSet) :
    Except Unit MatchSet :=
  if anchorPasses p am.1 then
    match indicatorText am.2 with
    | none => .error ()
    | some dt =>
      if dateIsToday dt then .ok (setdefaultAppend p (am.1.getAttr "href") m)
      else .ok m
  else .ok m

/-- The inner loop over anchors for a fixed keyword `p`. -/
def foldAnchors (p : String) : List (Node × List Node) → MatchSet →
    Except Unit MatchSet
  | [], m => .ok m
  | am :: ams, m =>
    match stepAnchor p am m with
    | .error e => .error e
    | .ok m1 => foldAnchors p ams m1

/-- The outer loop over (already lowercased) keywords. -/
def foldProducts (ams : List (Node × List Node)) : List String → MatchSet →
    Except Unit MatchSet
  | [], m => .ok m
  | p :: ps, m =>
    match foldAnchors p ams m with
    | .error e => .error e
    | .ok m1 => foldProducts ams ps m1

/-- `search_for_products` (lines 31-56), starting from the parsed tree:
lowercase the keywords, run the keyword-major double loop, and return `none`
("no matches") when the dict stayed empty.  `Except.error ()` is the
uncaught structural error escaping the function. -/
def search_for_products (root : Node) (products : List String) :
    Except Unit (Option MatchSet) :=
  match foldProducts (findAll root) (products.map pyLower) [] with
  | .error e => .error e
  | .ok m => .ok (if m.isEmpty then none else some m)

/-! Concrete documents exercising the matcher.  `freshBlock a ind` realises
the page layout the traversal assumes: the anchor sits five levels below a
block whose 4th child's 4th child's 2nd child carries the indicator text. -/

/-- An empty filler element. -/
def filler : Node := .elem "div" [] []

/-- An anchor with one direct text child and an href attribute. -/
def mkAnchor (txt href : String) : Node :=
  .elem "a" [("href", href)] [.text txt]

/-- A block in which `a` has exactly five ancestors below the block's parent
and the fixed traversal from `a` reaches a span holding `ind`. -/
def freshBlock (a : Node) (ind : String) : Node :=
  .elem "div" []
    [ .elem "div" [] [.elem "div" [] [.elem "div" [] [.elem "div" [] [a]]]]
    , filler
    , filler
    , .elem "div" []
        [ filler, filler, filler
        , .elem "div" [] [filler, .elem "span" [] [.text ind]] ] ]

/-- A document holding one well-structured "Widget Pro" anchor whose
indicator text is `ind`. -/
def widgetDoc (ind : String) : Node :=
  .elem "[document]" [] [freshBlock (mkAnchor "Widget Pro" "http://x/1") ind]

/-- An anchor placed directly under the document root: it passes the text
and href checks but has a single ancestor, so the traversal fails. -/
def shallowAnchor : Node := mkAnchor "Widget Ultra" "http://x/2"

/-- A document with a fresh well-structured match followed by a passing
anchor whose surroundings lack the assumed shape. -/
def brokenDoc : Node :=
  .elem "[document]" []
    [freshBlock (mkAnchor "Widget Pro" "http://x/1") "5 שעות", shallowAnchor]

/-- A document holding one fresh, well-structured "Smart TV" anchor. -/
def tvDoc : Node :=
  .elem "[document]" [] [freshBlock (mkAnchor "Smart TV" "http://a") "5 שעות"]

/-- A concrete ancestor chain whose 5th entry carries the expected child
structure with a fresh indicator. -/
def sampleChain : List Node :=
  [filler, filler, filler, filler,
   freshBlock (mkAnchor "Widget Pro" "http://x/1") "5 שעות"]

/-- Python `sep.join(parts)`. -/
def joinStr (sep : String) : List String → String
  | [] => ""
  | [s] => s
  | s :: rest => s ++ sep ++ joinStr sep rest

/-- Python `str.title()` on a character list: an alphabetic character is
uppercased after a non-alphabetic one (or at the start) and lowercased
otherwise; `prevAlpha` carries whether the previous character was alphabetic. -/
def pyTitleChars (prevAlpha : Bool) : List Char → List Char
  | [] => []
  | c :: cs =>
    if c.isAlpha then
      (if prevAlpha then c.toLower else c.toUpper) :: pyTitleChars true cs
    else c :: pyTitleChars false cs

/-- Python `str.title()`. -/
def pyTitle (s : String) : String :=
  ⟨pyTitleChars false s.data⟩

/-- The `prevAlpha` carry left behind after `pyTitleChars` has consumed a
character list: whether its last character is alphabetic (`p` when empty). -/
def lastAlpha (p : Bool) : List Char → Bool
  | [] => p
  | c :: cs => lastAlpha c.isAlpha cs

/-- Line 117: the subject of the composed message,
`f"SmartBuy products alert! ({', '.join(products.keys()).title()})"`. -/
def composeSubject (products : MatchSet) : String :=
  "SmartBuy products alert! (" ++ pyTitle (joinStr ", " (products.map Prod.fst)) ++ ")"

/-- Lines 108-112: one body paragraph per dict entry. -/
def composeBodyEntries : MatchSet → String
  | [] => ""
  | (key, links) :: rest =>
    "The product responding to keyword \"" ++ key
      ++ "\" has been found in SmartBuy.\n"
      ++ "Click here to find out more: " ++ joinStr " , " links ++ "\n\n"
      ++ composeBodyEntries rest

/-- Lines 107-112: the body of the composed message. -/
def composeBody (products : MatchSet) : String :=
  "Great success!\n\n" ++ composeBodyEntries products

/-- The pure matching outcome for a keyword/anchor pair: the anchor passes
the text and href checks, the fixed traversal succeeds, and the reached
indicator text is fresh. -/
def anchorFresh (p : String) (am : Node × List Node) : Bool :=
  anchorPasses p am.1 &&
    (match indicatorText am.2 with
     | some t => dateIsToday t
     | none => false)

/-- The hrefs of the anchors matching keyword `p`, in document order. -/
def freshHrefs (p : String) (ams : List (Node × List Node)) : List String :=
  (ams.filter (fun am => anchorFresh p am)).map (fun am => am.1.getAttr "href")

/-- The keys of a `MatchSet`, in insertion order. -/
def keysOf (m : MatchSet) : List String :=
  m.map Prod.fst

/-!  Helper lemmas about the string primitives. -/

theorem drop_head_eq_get {α : Type} : ∀ (n : Nat) (l : List α), (l.drop n).head? = l.get? n
  | 0, [] => rfl
  | 0, _ :: _ => rfl
  | _ + 1, [] => rfl
  | n + 1, _ :: l => drop_head_eq_get n l

theorem startsWithChars_refl : ∀ (l : List Char), startsWithChars l l = true
  | [] => rfl
  | c :: cs => by simp [startsWithChars, startsWithChars_refl cs]

theorem startsWithChars_append (n : List Char) :
    ∀ (h t : List Char), startsWithChars n h = true → startsWithChars n (h ++ t) = true := by
  induction n with
  | nil => intro h t _; rfl
  | cons c cs ih =>
    intro h t hs
    cases h with
    | nil => simp [startsWithChars] at hs
    | cons d ds =>
      simp only [startsWithChars, Bool.and_eq_true] at hs
      simp only [List.cons_append, startsWithChars, Bool.and_eq_true]
      exact ⟨hs.1, ih ds t hs.2⟩

theorem hasSubstrChars_append_right (n : List Char) :
    ∀ (h t : List Char), hasSubstrChars n h = true → hasSubstrChars n (h ++ t) = true := by
  intro h
  induction h with
  | nil =>
    intro t hs
    cases n with
    | nil => cases t <;> simp [hasSubstrChars, startsWithChars]
    | cons c cs => simp [hasSubstrChars, startsWithChars] at hs
  | cons d ds ih =>
    intro t hs
    simp only [hasSubstrChars, Bool.or_eq_true] at hs
    simp only [List.cons_append, hasSubstrChars, Bool.or_eq_true]
    cases hs with
    | inl h1 => exact Or.inl (startsWithChars_append n (d :: ds) t h1)
    | inr h2 => exact Or.inr (ih t h2)

theorem hasSubstrChars_append_left (n : List Char) :
    ∀ (t h : List Char), hasSubstrChars n h = true → hasSubstrChars n (t ++ h) = true := by
  intro t
  induction t with
  | nil => intro h hs; exact hs
  | cons c cs ih =>
    intro h hs
    simp only [List.cons_append, hasSubstrChars, Bool.or_eq_true]
    exact Or.inr (ih h hs)

theorem strIn_append_right (n s t : String) (hs : strIn n s = true) :
    strIn n (s ++ t) = true := by
  unfold strIn at *
  rw [String.data_append]
  exact hasSubstrChars_append_right n.data s.data t.data hs

theorem strIn_append_left (n t s : String) (hs : strIn n s = true) :
    strIn n (t ++ s) = true := by
  unfold strIn at *
  rw [String.data_append]
  exact hasSubstrChars_append_left n.data t.data s.data hs

theorem strIn_refl (s : String) : strIn s s = true := by
  unfold strIn
  cases hd : s.data with
  | nil => simp [hasSubstrChars, startsWithChars]
  | cons c cs =>
    simp only [hasSubstrChars, Bool.or_eq_true]
    exact Or.inl (startsWithChars_refl (c :: cs))

theorem strIn_joinStr_of_mem (sep u : String) :
    ∀ (ls : List String), u ∈ ls → strIn u (joinStr sep ls) = true := by
  intro ls
  induction ls with
  | nil => intro hu; cases hu
  | cons x rest ih =>
    intro hu
    cases rest with
    | nil =>
      rw [List.mem_singleton] at hu
      subst hu
      exact strIn_refl u
    | cons y rest2 =>
      rcases List.mem_cons.mp hu with hx | hrest
      · subst hx
        exact strIn_append_right _ _ _ (strIn_append_right _ _ _ (strIn_refl u))
      · exact strIn_append_left _ _ _ (ih hrest)

/-!  Helper lemmas about `pyTitle`. -/

theorem lastAlpha_append (xs : List Char) :
    ∀ (p : Bool) (ys : List Char), lastAlpha p (xs ++ ys) = lastAlpha (lastAlpha p xs) ys := by
  induction xs with
  | nil => intro p ys; rfl
  | cons c cs ih =>
    intro p ys
    simp only [List.cons_append, lastAlpha]
    exact ih c.isAlpha ys

theorem pyTitleChars_append (xs : List Char) :
    ∀ (p : Bool) (ys : List Char),
      pyTitleChars p (xs ++ ys) = pyTitleChars p xs ++ pyTitleChars (lastAlpha p xs) ys := by
  induction xs with
  | nil => intro p ys; rfl
  | cons c cs ih =>
    intro p ys
    by_cases hc : c.isAlpha
    · simp [pyTitleChars, lastAlpha, hc, ih]
    · simp [pyTitleChars, lastAlpha, hc, ih]

theorem pyTitleChars_sep_block (xs ys : List Char) :
    pyTitleChars false ((xs ++ [',', ' ']) ++ ys)
      = (pyTitleChars false xs ++ [',', ' ']) ++ pyTitleChars false ys := by
  have hc : (',' : Char).isAlpha = false := by decide
  have hs : (' ' : Char).isAlpha = false := by decide
  rw [pyTitleChars_append, pyTitleChars_append, lastAlpha_append]
  simp [pyTitleChars, lastAlpha, hc, hs]

theorem pyTitle_joinStr : ∀ (ks : List String),
    pyTitle (joinStr ", " ks) = joinStr ", " (ks.map pyTitle)
  | [] => rfl
  | [k] => rfl
  | k :: k2 :: rest2 => by
    have ih := pyTitle_joinStr (k2 :: rest2)
    apply String.ext
    have hih := congrArg String.data ih
    show pyTitleChars false ((k ++ ", " ++ joinStr ", " (k2 :: rest2)).data)
      = (pyTitle k ++ ", " ++ joinStr ", " ((k2 :: rest2).map pyTitle)).data
    rw [String.data_append, String.data_append, String.data_append, String.data_append,
      ← hih]
    have hsep : (", " : String).data = [',', ' '] := rfl
    rw [hsep]
    exact pyTitleChars_sep_block k.data (joinStr ", " (k2 :: rest2)).data

/-!  Helper lemmas about `setdefaultAppend` and the two loops. -/

theorem keysOf_append (m m2 : MatchSet) : keysOf (m ++ m2) = keysOf m ++ keysOf m2 := by
  simp [keysOf]

theorem setdefaultAppend_of_not_mem (k v : String) :
    ∀ (m : MatchSet), k ∉ keysOf m → setdefaultAppend k v m = m ++ [(k, [v])] := by
  intro m
  induction m with
  | nil => intro _; rfl
  | cons kv rest ih =>
    obtain ⟨k0, vs0⟩ := kv
    intro h
    simp only [keysOf, List.map_cons, List.mem_cons, not_or] at h
    obtain ⟨h1, h2⟩ := h
    simp only [setdefaultAppend, List.cons_append]
    rw [if_neg (by simp [beq_iff_eq]; exact fun he => h1 he.symm)]
    rw [ih (by simpa [keysOf] using h2)]

theorem setdefaultAppend_last (k v : String) (vs : List String) :
    ∀ (m : MatchSet), k ∉ keysOf m →
      setdefaultAppend k v (m ++ [(k, vs)]) = m ++ [(k, vs ++ [v])] := by
  intro m
  induction m with
  | nil => simp [setdefaultAppend]
  | cons kv rest ih =>
    obtain ⟨k0, vs0⟩ := kv
    intro h
    simp only [keysOf, List.map_cons, List.mem_cons, not_or] at h
    obtain ⟨h1, h2⟩ := h
    simp only [setdefaultAppend, List.cons_append]
    rw [if_neg (by simp [beq_iff_eq]; exact fun he => h1 he.symm)]
    rw [List.append_eq, ih (by simpa [keysOf] using h2)]

theorem mem_keys_setdefaultAppend (j k v : String) :
    ∀ (m : MatchSet), (j ∈ keysOf (setdefaultAppend k v m) ↔ j ∈ keysOf m ∨ j = k) := by
  intro m
  induction m with
  | nil => simp [setdefaultAppend, keysOf]
  | cons kv rest ih =>
    obtain ⟨k0, vs0⟩ := kv
    by_cases h : k0 = k
    · subst h
      simp only [setdefaultAppend, beq_self_eq_true, if_pos]
      simp only [keysOf, List.map_cons, List.mem_cons]
      constructor
      · rintro (h1 | h2)
        · exact Or.inl (Or.inl h1)
        · exact Or.inl (Or.inr h2)
      · rintro ((h1 | h2) | h3)
        · exact Or.inl h1
        · exact Or.inr h2
        · exact Or.inl h3
    · simp only [setdefaultAppend]
      rw [if_neg (by simp [beq_iff_eq, h])]
      simp only [keysOf, List.map_cons, List.mem_cons] at ih ⊢
      rw [ih]
      tauto

theorem vals_setdefaultAppend (k v : String) :
    ∀ (m : MatchSet), (∀ kv ∈ m, kv.2 ≠ []) →
      ∀ kv ∈ setdefaultAppend k v m, kv.2 ≠ [] := by
  intro m
  induction m with
  | nil =>
    intro _ kv hkv
    simp only [setdefaultAppend, List.mem_singleton] at hkv
    subst hkv
    simp
  | cons kv0 rest ih =>
    obtain ⟨k0, vs0⟩ := kv0
    intro hm kv hkv
    simp only [setdefaultAppend] at hkv
    by_cases h : k0 == k
    · rw [if_pos h] at hkv
      rcases List.mem_cons.mp hkv with h1 | h2
      · subst h1; simp
      · exact hm kv (List.mem_cons_of_mem _ h2)
    · rw [if_neg h] at hkv
      rcases List.mem_cons.mp hkv with h1 | h2
      · subst h1; exact hm (k0, vs0) (List.mem_cons_self _ _)
      · exact ih (fun kv1 hkv1 => hm kv1 (List.mem_cons_of_mem _ hkv1)) kv h2

theorem prov_setdefaultAppend (Q : String → String → Prop) (k v : String) :
    ∀ (m : MatchSet), (∀ kv ∈ m, ∀ u ∈ kv.2, Q kv.1 u) → Q k v →
      ∀ kv ∈ setdefaultAppend k v m, ∀ u ∈ kv.2, Q kv.1 u := by
  intro m
  induction m with
  | nil =>
    intro _ hq kv hkv u hu
    simp only [setdefaultAppend, List.mem_singleton] at hkv
    subst hkv
    simp only [List.mem_singleton] at hu
    subst hu
    exact hq
  | cons kv0 rest ih =>
    obtain ⟨k0, vs0⟩ := kv0
    intro hm hq kv hkv u hu
    simp only [setdefaultAppend] at hkv
    by_cases h : k0 == k
    · rw [if_pos h] at hkv
      rcases List.mem_cons.mp hkv with h1 | h2
      · subst h1
        rcases List.mem_append.mp hu with h3 | h4
        · exact hm (k0, vs0) (List.mem_cons_self _ _) u h3
        · rw [List.mem_singleton] at h4
          subst h4
          exact (beq_iff_eq.mp h) ▸ hq
      · exact hm kv (List.mem_cons_of_mem _ h2) u hu
    · rw [if_neg h] at hkv
      rcases List.mem_cons.mp hkv with h1 | h2
      · subst h1
        exact hm (k0, vs0) (List.mem_cons_self _ _) u hu
      · exact ih (fun kv1 hkv1 => hm kv1 (List.mem_cons_of_mem _ hkv1)) hq kv h2 u hu

theorem stepAnchor_eq (p : String) (am : Node × List Node) (m : MatchSet) :
    (anchorFresh p am = true ∧
       stepAnchor p am m = .ok (setdefaultAppend p (am.1.getAttr "href") m)) ∨
    (anchorFresh p am = false ∧ stepAnchor p am m = .ok m) ∨
    (anchorFresh p am = false ∧ stepAnchor p am m = .error ()) := by
  unfold stepAnchor anchorFresh
  by_cases hp : anchorPasses p am.1
  · cases hit : indicatorText am.2 with
    | none => right; right; simp [hp, hit]
    | some t =>
      by_cases hd : dateIsToday t
      · left; simp [hp, hit, hd]
      · right; left; simp [hp, hit, hd]
  · right; left
    simp only [Bool.not_eq_true] at hp
    simp [hp]

theorem anchorFresh_passes (p : String) (am : Node × List Node)
    (h : anchorFresh p am = true) : anchorPasses p am.1 = true := by
  unfold anchorFresh at h
  exact (Bool.and_eq_true_iff.mp h).1

theorem anchorPasses_shape (p : String) (a : Node) (h : anchorPasses p a = true) :
    a.nodeString ≠ none ∧ a.getAttr "href" ≠ "" := by
  unfold anchorPasses at h
  cases hs : a.nodeString with
  | none => rw [hs] at h; cases h
  | some s =>
    rw [hs] at h
    refine ⟨by simp, ?_⟩
    have h2 := (Bool.and_eq_true_iff.mp h).2
    simpa [bne_iff_ne] using h2

theorem freshHrefs_cons_true (p : String) (am : Node × List Node)
    (ams : List (Node × List Node)) (h : anchorFresh p am = true) :
    freshHrefs p (am :: ams) = am.1.getAttr "href" :: freshHrefs p ams := by
  simp [freshHrefs, List.filter_cons, h]

theorem freshHrefs_cons_false (p : String) (am : Node × List Node)
    (ams : List (Node × List Node)) (h : anchorFresh p am = false) :
    freshHrefs p (am :: ams) = freshHrefs p ams := by
  simp [freshHrefs, List.filter_cons, h]

theorem foldAnchors_ok_cons (p : String) (am : Node × List Node)
    (ams : List (Node × List Node)) (m mf : MatchSet)
    (h : foldAnchors p (am :: ams) m = .ok mf) :
    ∃ m1, stepAnchor p am m = .ok m1 ∧ foldAnchors p ams m1 = .ok mf := by
  unfold foldAnchors at h
  cases hst : stepAnchor p am m with
  | error e => rw [hst] at h; cases h
  | ok m1 => rw [hst] at h; exact ⟨m1, rfl, h⟩

theorem foldAnchors_keys_mono (p j : String) (ams : List (Node × List Node)) :
    ∀ (m mf : MatchSet), foldAnchors p ams m = .ok mf → j ∈ keysOf m → j ∈ keysOf mf := by
  induction ams with
  | nil =>
    intro m mf h hj
    unfold foldAnchors at h
    cases h
    exact hj
  | cons am ams ih =>
    intro m mf h hj
    obtain ⟨m1, hst, hrest⟩ := foldAnchors_ok_cons p am ams m mf h
    rcases stepAnchor_eq p am m with ⟨_, he⟩ | ⟨_, he⟩ | ⟨_, he⟩
    · rw [he] at hst
      cases hst
      exact ih _ _ hrest ((mem_keys_setdefaultAppend j p _ m).mpr (Or.inl hj))
    · rw [he] at hst
      cases hst
      exact ih _ _ hrest hj
    · rw [he] at hst
      cases hst

theorem foldAnchors_gains_key (p : String) (ams : List (Node × List Node)) :
    ∀ (m mf : MatchSet), foldAnchors p ams m = .ok mf →
      (∃ am ∈ ams, anchorFresh p am = true) → p ∈ keysOf mf := by
  induction ams with
  | nil =>
    intro m mf _ hex
    obtain ⟨am, ham, _⟩ := hex
    cases ham
  | cons am ams ih =>
    intro m mf h hex
    obtain ⟨m1, hst, hrest⟩ := foldAnchors_ok_cons p am ams m mf h
    obtain ⟨am0, ham0, hf0⟩ := hex
    rcases List.mem_cons.mp ham0 with rfl | htail
    · rcases stepAnchor_eq p am0 m with ⟨_, he⟩ | ⟨hf, _⟩ | ⟨hf, _⟩
      · rw [he] at hst
        cases hst
        exact foldAnchors_keys_mono p p ams _ _ hrest
          ((mem_keys_setdefaultAppend p p _ m).mpr (Or.inr rfl))
      · rw [hf0] at hf
        cases hf
      · rw [hf0] at hf
        cases hf
    · rcases stepAnchor_eq p am m with ⟨_, he⟩ | ⟨_, he⟩ | ⟨_, he⟩
      · rw [he] at hst
        cases hst
        exact ih _ _ hrest ⟨am0, htail, hf0⟩
      · rw [he] at hst
        cases hst
        exact ih _ _ hrest ⟨am0, htail, hf0⟩
      · rw [he] at hst
        cases hst

theorem foldAnchors_nochange (p : String) (ams : List (Node × List Node)) :
    ∀ (m mf : MatchSet), foldAnchors p ams m = .ok mf →
      (∀ am ∈ ams, anchorFresh p am = false) → mf = m := by
  induction ams with
  | nil =>
    intro m mf h _
    unfold foldAnchors at h
    cases h
    rfl
  | cons am ams ih =>
    intro m mf h hall
    obtain ⟨m1, hst, hrest⟩ := foldAnchors_ok_cons p am ams m mf h
    rcases stepAnchor_eq p am m with ⟨hf, _⟩ | ⟨_, he⟩ | ⟨_, he⟩
    · rw [hall am (List.mem_cons_self _ _)] at hf
      cases hf
    · rw [he] at hst
      cases hst
      exact ih _ _ hrest (fun am1 ham1 => hall am1 (List.mem_cons_of_mem _ ham1))
    · rw [he] at hst
      cases hst

theorem foldAnchors_vals (p : String) (ams : List (Node × List Node)) :
    ∀ (m mf : MatchSet), foldAnchors p ams m = .ok mf →
      (∀ kv ∈ m, kv.2 ≠ []) → ∀ kv ∈ mf, kv.2 ≠ [] := by
  induction ams with
  | nil =>
    intro m mf h hm
    unfold foldAnchors at h
    cases h
    exact hm
  | cons am ams ih =>
    intro m mf h hm
    obtain ⟨m1, hst, hrest⟩ := foldAnchors_ok_cons p am ams m mf h
    rcases stepAnchor_eq p am m with ⟨_, he⟩ | ⟨_, he⟩ | ⟨_, he⟩
    · rw [he] at hst
      cases hst
      exact ih _ _ hrest (vals_setdefaultAppend p _ m hm)
    · rw [he] at hst
      cases hst
      exact ih _ _ hrest hm
    · rw [he] at hst
      cases hst

theorem foldAnchors_prov (Q : String → String → Prop) (p : String)
    (ams : List (Node × List Node)) :
    ∀ (m mf : MatchSet), foldAnchors p ams m = .ok mf →
      (∀ kv ∈ m, ∀ u ∈ kv.2, Q kv.1 u) →
      (∀ am ∈ ams, anchorFresh p am = true → Q p (am.1.getAttr "href")) →
      ∀ kv ∈ mf, ∀ u ∈ kv.2, Q kv.1 u := by
  induction ams with
  | nil =>
    intro m mf h hm _
    unfold foldAnchors at h
    cases h
    exact hm
  | cons am ams ih =>
    intro m mf h hm hq
    obtain ⟨m1, hst, hrest⟩ := foldAnchors_ok_cons p am ams m mf h
    rcases stepAnchor_eq p am m with ⟨hf, he⟩ | ⟨_, he⟩ | ⟨_, he⟩
    · rw [he] at hst
      cases hst
      exact ih _ _ hrest
        (prov_setdefaultAppend Q p _ m hm (hq am (List.mem_cons_self _ _) hf))
        (fun am1 ham1 => hq am1 (List.mem_cons_of_mem _ ham1))
    · rw [he] at hst
      cases hst
      exact ih _ _ hrest hm (fun am1 ham1 => hq am1 (List.mem_cons_of_mem _ ham1))
    · rw [he] at hst
      cases hst

theorem foldAnchors_acc_last (p : String) (ams : List (Node × List Node)) :
    ∀ (m : MatchSet) (vs : List String) (mf : MatchSet), p ∉ keysOf m →
      foldAnchors p ams (m ++ [(p, vs)]) = .ok mf →
      mf = m ++ [(p, vs ++ freshHrefs p ams)] := by
  induction ams with
  | nil =>
    intro m vs mf _ h
    unfold foldAnchors at h
    cases h
    simp [freshHrefs]
  | cons am ams ih =>
    intro m vs mf hk h
    obtain ⟨m1, hst, hrest⟩ := foldAnchors_ok_cons p am ams _ mf h
    rcases stepAnchor_eq p am (m ++ [(p, vs)]) with ⟨hf, he⟩ | ⟨hf, he⟩ | ⟨_, he⟩
    · rw [he] at hst
      cases hst
      rw [setdefaultAppend_last p _ vs m hk] at hrest
      rw [ih m _ mf hk hrest, freshHrefs_cons_true p am ams hf]
      simp
    · rw [he] at hst
      cases hst
      rw [ih m vs mf hk hrest, freshHrefs_cons_false p am ams hf]
    · rw [he] at hst
      cases hst

theorem foldAnchors_characterize (p : String) (ams : List (Node × List Node)) :
    ∀ (m mf : MatchSet), p ∉ keysOf m → foldAnchors p ams m = .ok mf →
      (freshHrefs p ams = [] ∧ mf = m) ∨
      (freshHrefs p ams ≠ [] ∧ mf = m ++ [(p, freshHrefs p ams)]) := by
  induction ams with
  | nil =>
    intro m mf _ h
    unfold foldAnchors at h
    cases h
    exact Or.inl ⟨rfl, rfl⟩
  | cons am ams ih =>
    intro m mf hk h
    obtain ⟨m1, hst, hrest⟩ := foldAnchors_ok_cons p am ams m mf h
    rcases stepAnchor_eq p am m with ⟨hf, he⟩ | ⟨hf, he⟩ | ⟨_, he⟩
    · rw [he] at hst
      cases hst
      rw [setdefaultAppend_of_not_mem p _ m hk] at hrest
      right
      rw [freshHrefs_cons_true p am ams hf]
      refine ⟨by simp, ?_⟩
      rw [foldAnchors_acc_last p ams m _ mf hk hrest]
      simp
    · rw [he] at hst
      cases hst
      rw [freshHrefs_cons_false p am ams hf]
      exact ih m mf hk hrest
    · rw [he] at hst
      cases hst

theorem foldProducts_ok_cons (ams : List (Node × List Node)) (p : String)
    (ps : List String) (m mf : MatchSet)
    (h : foldProducts ams (p :: ps) m = .ok mf) :
    ∃ m1, foldAnchors p ams m = .ok m1 ∧ foldProducts ams ps m1 = .ok mf := by
  unfold foldProducts at h
  cases hfa : foldAnchors p ams m with
  | error e => rw [hfa] at h; cases h
  | ok m1 => rw [hfa] at h; exact ⟨m1, rfl, h⟩

theorem foldProducts_keys_mono (ams : List (Node × List Node)) (j : String)
    (ps : List String) :
    ∀ (m mf : MatchSet), foldProducts ams ps m = .ok mf → j ∈ keysOf m → j ∈ keysOf mf := by
  induction ps with
  | nil =>
    intro m mf h hj
    unfold foldProducts at h
    cases h
    exact hj
  | cons p ps ih =>
    intro m mf h hj
    obtain ⟨m1, hfa, hrest⟩ := foldProducts_ok_cons ams p ps m mf h
    exact ih _ _ hrest (foldAnchors_keys_mono p j ams _ _ hfa hj)

theorem foldProducts_gains_key (ams : List (Node × List Node)) (q : String)
    (ps : List String) :
    ∀ (m mf : MatchSet), foldProducts ams ps m = .ok mf → q ∈ ps →
      (∃ am ∈ ams, anchorFresh q am = true) → q ∈ keysOf mf := by
  induction ps with
  | nil =>
    intro m mf _ hq _
    cases hq
  | cons p ps ih =>
    intro m mf h hq hex
    obtain ⟨m1, hfa, hrest⟩ := foldProducts_ok_cons ams p ps m mf h
    rcases List.mem_cons.mp hq with rfl | htail
    · exact foldProducts_keys_mono ams q ps _ _ hrest
        (foldAnchors_gains_key q ams _ _ hfa hex)
    · exact ih _ _ hrest htail hex

theorem foldProducts_nochange (ams : List (Node × List Node)) (ps : List String) :
    ∀ (m mf : MatchSet), foldProducts ams ps m = .ok mf →
      (∀ p ∈ ps, ∀ am ∈ ams, anchorFresh p am = false) → mf = m := by
  induction ps with
  | nil =>
    intro m mf h _
    unfold foldProducts at h
    cases h
    rfl
  | cons p ps ih =>
    intro m mf h hall
    obtain ⟨m1, hfa, hrest⟩ := foldProducts_ok_cons ams p ps m mf h
    have h1 : m1 = m :=
      foldAnchors_nochange p ams m m1 hfa (hall p (List.mem_cons_self _ _))
    subst h1
    exact ih _ _ hrest (fun p1 hp1 => hall p1 (List.mem_cons_of_mem _ hp1))

theorem foldProducts_vals (ams : List (Node × List Node)) (ps : List String) :
    ∀ (m mf : MatchSet), foldProducts ams ps m = .ok mf →
      (∀ kv ∈ m, kv.2 ≠ []) → ∀ kv ∈ mf, kv.2 ≠ [] := by
  induction ps with
  | nil =>
    intro m mf h hm
    unfold foldProducts at h
    cases h
    exact hm
  | cons p ps ih =>
    intro m mf h hm
    obtain ⟨m1, hfa, hrest⟩ := foldProducts_ok_cons ams p ps m mf h
    exact ih _ _ hrest (foldAnchors_vals p ams _ _ hfa hm)

theorem foldProducts_prov (Q : String → String → Prop)
    (ams : List (Node × List Node)) (ps : List String) :
    ∀ (m mf : MatchSet), foldProducts ams ps m = .ok mf →
      (∀ kv ∈ m, ∀ u ∈ kv.2, Q kv.1 u) →
      (∀ p : String, ∀ am ∈ ams, anchorFresh p am = true → Q p (am.1.getAttr "href")) →
      ∀ kv ∈ mf, ∀ u ∈ kv.2, Q kv.1 u := by
  induction ps with
  | nil =>
    intro m mf h hm _
    unfold foldProducts at h
    cases h
    exact hm
  | cons p ps ih =>
    intro m mf h hm hq
    obtain ⟨m1, hfa, hrest⟩ := foldProducts_ok_cons ams p ps m mf h
    exact ih _ _ hrest (foldAnchors_prov Q p ams _ _ hfa hm (hq p)) hq

theorem foldProducts_characterize (ams : List (Node × List Node)) (ps : List String) :
    ∀ (m mf : MatchSet), (∀ p ∈ ps, p ∉ keysOf m) → ps.Nodup →
      foldProducts ams ps m = .ok mf →
      mf = m ++ (ps.filter (fun p => !(freshHrefs p ams).isEmpty)).map
        (fun p => (p, freshHrefs p ams)) := by
  induction ps with
  | nil =>
    intro m mf _ _ h
    unfold foldProducts at h
    cases h
    simp
  | cons p ps ih =>
    intro m mf hk hnd h
    obtain ⟨m1, hfa, hrest⟩ := foldProducts_ok_cons ams p ps m mf h
    have hpk : p ∉ keysOf m := hk p (List.mem_cons_self _ _)
    have hndtail : ps.Nodup := (List.nodup_cons.mp hnd).2
    have hpnotps : p ∉ ps := (List.nodup_cons.mp hnd).1
    rcases foldAnchors_characterize p ams m m1 hpk hfa with ⟨hemp, h1⟩ | ⟨hne, h1⟩
    · subst h1
      have := ih _ mf (fun q hq => hk q (List.mem_cons_of_mem _ hq)) hndtail hrest
      rw [this, List.filter_cons]
      have : (!(freshHrefs p ams).isEmpty) = false := by
        rw [hemp]
        rfl
      rw [this]
      simp
    · subst h1
      have hkeys1 : ∀ q ∈ ps, q ∉ keysOf (m ++ [(p, freshHrefs p ams)]) := by
        intro q hq
        rw [keysOf_append]
        simp only [List.mem_append, not_or]
        refine ⟨hk q (List.mem_cons_of_mem _ hq), ?_⟩
        simp only [keysOf, List.map_cons, List.map_nil, List.mem_singleton]
        intro he
        exact hpnotps (he ▸ hq)
      have := ih _ mf hkeys1 hndtail hrest
      rw [this, List.filter_cons]
      have hcond : (!(freshHrefs p ams).isEmpty) = true := by
        cases hfr : freshHrefs p ams with
        | nil => exact absurd hfr hne
        | cons a l => rfl
      rw [hcond]
      simp

/-!  Theorems settling the claims. -/

/-- C2: the freshness test accepts an indicator text iff it contains the
hours marker or the exact singular-day marker; concretely `"5 שעות"` is
fresh, `"1 ימים"` is fresh, `"2 ימים"` is not, and a document whose only
candidate anchor carries the stale indicator `"3 ימים"` yields "no matches". -/
theorem freshness_boundary_cases :
    (∀ t : String, dateIsToday t = (strIn "שעות" t || strIn "1 ימים" t)) ∧
    dateIsToday "5 שעות" = true ∧
    dateIsToday "1 ימים" = true ∧
    dateIsToday "2 ימים" = false ∧
    search_for_products (widgetDoc "3 ימים") ["widget"] = .ok none :=
  ⟨fun _ => rfl, rfl, rfl, rfl, rfl⟩

/-- C6: in `brokenDoc` the shallow anchor passes the text-containment and
href checks but has too few ancestors for the fixed traversal, so the
matcher fails with the uncaught structural error; no partial result survives
even though the document's other anchor is a fresh, well-structured match. -/
theorem structural_error_propagates :
    anchorPasses "widget" shallowAnchor = true ∧
    search_for_products (widgetDoc "5 שעות") ["widget"] =
      .ok (some [("widget", ["http://x/1"])]) ∧
    search_for_products brokenDoc ["widget"] = .error () :=
  ⟨rfl, rfl, rfl⟩

/-- C9: composing a message from
`{"tv": ["http://a"], "fridge": ["http://b"]}` yields a subject containing
both "Tv" and "Fridge" and a body containing both URLs. -/
theorem compose_roundtrip_tv_fridge :
    strIn "Tv" (composeSubject [("tv", ["http://a"]), ("fridge", ["http://b"])]) = true ∧
    strIn "Fridge" (composeSubject [("tv", ["http://a"]), ("fridge", ["http://b"])]) = true ∧
    strIn "http://a" (composeBody [("tv", ["http://a"]), ("fridge", ["http://b"])]) = true ∧
    strIn "http://b" (composeBody [("tv", ["http://a"]), ("fridge", ["http://b"])]) = true :=
  ⟨rfl, rfl, rfl, rfl⟩

/-- C10: the singular-day check is a plain substring test, so indicator
texts such as `"11 ימים"` and `"21 ימים"` are classified fresh as well, and
a document whose anchor carries `"11 ימים"` produces a match. -/
theorem singular_day_is_substring_test :
    dateIsToday "11 ימים" = true ∧
    dateIsToday "21 ימים" = true ∧
    search_for_products (widgetDoc "11 ימים") ["widget"] =
      .ok (some [("widget", ["http://x/1"])]) :=
  ⟨rfl, rfl, rfl⟩

/-- C8 counterexample: for the match set `{"tv": ["http://a"]}` the composed
subject is `"SmartBuy products alert! (Tv)"`, which is not the claimed form
`"Alert! (Tv)"`. -/
theorem subject_is_not_bare_alert :
    composeSubject [("tv", ["http://a"])] = "SmartBuy products alert! (Tv)" ∧
    composeSubject [("tv", ["http://a"])] ≠ "Alert! (Tv)" :=
  ⟨rfl, by decide⟩

/-- C7 counterexample: with the keyword list `["tv", "TV"]` (two spellings
of one keyword) against a document with a single fresh "Smart TV" anchor,
the entry stored under "tv" is the anchor's href twice, not the hrefs of the
matching anchors in document order (which is the single href). -/
theorem duplicate_keywords_double_the_group :
    search_for_products tvDoc ["tv", "TV"] =
      .ok (some [("tv", ["http://a", "http://a"])]) ∧
    freshHrefs "tv" (findAll tvDoc) = ["http://a"] ∧
    (["http://a", "http://a"] : List String) ≠ ["http://a"] :=
  ⟨rfl, rfl, by decide⟩

/-- C1: for every keyword/anchor pair passing the text-containment and href
checks, the matcher's step is decided by the indicator found by the fixed
traversal — the 5th ancestor (skip four, take the fifth), then that node's
4th child, then its 4th child, then the text of that node's 2nd child: a
missing structure yields the structural error, and otherwise the anchor is
recorded or skipped according to the freshness of exactly that text. -/
theorem fixed_path_decides_step (p : String) (am : Node × List Node) (m : MatchSet)
    (h : anchorPasses p am.1 = true) :
    stepAnchor p am m =
      match (am.2.get? 4).bind (fun anc => (anc.childNodes.get? 3).bind
          (fun c1 => (c1.childNodes.get? 3).bind
            (fun c2 => (c2.childNodes.get? 1).bind (fun c3 => some c3.getText)))) with
      | none => .error ()
      | some t =>
        if dateIsToday t then .ok (setdefaultAppend p (am.1.getAttr "href") m)
        else .ok m := by
  have hit : indicatorText am.2 =
      (am.2.get? 4).bind (fun anc => (anc.childNodes.get? 3).bind
        (fun c1 => (c1.childNodes.get? 3).bind
          (fun c2 => (c2.childNodes.get? 1).bind (fun c3 => some c3.getText)))) := by
    unfold indicatorText fifthParent
    rw [drop_head_eq_get]
    rfl
  unfold stepAnchor
  rw [if_pos h, hit]

/-- Witness for C1 at a concrete passing anchor with a concrete chain. -/
theorem fixed_path_decides_step_witness :
    anchorPasses "widget" (mkAnchor "Widget Pro" "http://x/1") = true ∧
    stepAnchor "widget" (mkAnchor "Widget Pro" "http://x/1", sampleChain) [] =
      match (sampleChain.get? 4).bind (fun anc => (anc.childNodes.get? 3).bind
          (fun c1 => (c1.childNodes.get? 3).bind
            (fun c2 => (c2.childNodes.get? 1).bind (fun c3 => some c3.getText)))) with
      | none => .error ()
      | some t =>
        if dateIsToday t then
          .ok (setdefaultAppend "widget"
            ((mkAnchor "Widget Pro" "http://x/1").getAttr "href") [])
        else .ok [] :=
  ⟨rfl,
   fixed_path_decides_step "widget" (mkAnchor "Widget Pro" "http://x/1", sampleChain) [] rfl⟩

/-- C3: for an anchor with direct text `t` and a non-empty href, the
pass-test the matcher applies for keyword `k` (which it lowercases first)
succeeds exactly when the lowercased keyword is a substring of the
lowercased anchor text — case-insensitive on both sides. -/
theorem containment_is_case_insensitive (k t : String) (a : Node)
    (hs : a.nodeString = some t) (hh : a.getAttr "href" ≠ "") :
    anchorPasses (pyLower k) a = strIn (pyLower k) (pyLower t) := by
  unfold anchorPasses
  rw [hs]
  show (strIn (pyLower k) (pyLower t) && (a.getAttr "href" != "")) = strIn (pyLower k) (pyLower t)
  have hb : (a.getAttr "href" != "") = true := by simpa [bne_iff_ne] using hh
  rw [hb, Bool.and_true]

/-- Witness for C3 at a concrete anchor and mixed-case keyword. -/
theorem containment_is_case_insensitive_witness :
    (mkAnchor "Widget Pro" "http://x/1").nodeString = some "Widget Pro" ∧
    (mkAnchor "Widget Pro" "http://x/1").getAttr "href" ≠ "" ∧
    anchorPasses (pyLower "WIDGET") (mkAnchor "Widget Pro" "http://x/1")
      = strIn (pyLower "WIDGET") (pyLower "Widget Pro") :=
  ⟨rfl, by decide,
   containment_is_case_insensitive "WIDGET" "Widget Pro"
     (mkAnchor "Widget Pro" "http://x/1") rfl (by decide)⟩

/-- C4: every URL stored in a match group originates from an anchor that
passed every check for that keyword: it has a direct string, its non-empty
href equals the stored URL, and its indicator is fresh — so an anchor with
an empty or missing href, or without direct text content, is never included
in any match group. -/
theorem matched_urls_from_passing_anchors (root : Node) (products : List String)
    (m : MatchSet) (h : search_for_products root products = .ok (some m)) :
    ∀ kv ∈ m, ∀ u ∈ kv.2, ∃ am ∈ findAll root,
      anchorFresh kv.1 am = true ∧ u = am.1.getAttr "href" ∧
      am.1.nodeString ≠ none ∧ am.1.getAttr "href" ≠ "" := by
  cases hfold : foldProducts (findAll root) (products.map pyLower) [] with
  | error e =>
    have hs : search_for_products root products = .error e := by
      unfold search_for_products
      rw [hfold]
    rw [hs] at h
    cases h
  | ok m0 =>
    have hsearch : search_for_products root products =
        .ok (if m0.isEmpty then none else some m0) := by
      unfold search_for_products
      rw [hfold]
    rw [hsearch] at h
    by_cases hemp : m0.isEmpty = true
    · rw [if_pos hemp] at h
      cases h
    · rw [if_neg hemp] at h
      simp only [Except.ok.injEq, Option.some.injEq] at h
      subst h
      intro kv hkv u hu
      have hprov := foldProducts_prov
        (fun k u => ∃ am ∈ findAll root, anchorFresh k am = true ∧ u = am.1.getAttr "href")
        (findAll root) (products.map pyLower) [] m0 hfold
        (by simp)
        (fun p am ham hf => ⟨am, ham, hf, rfl⟩) kv hkv u hu
      obtain ⟨am, ham, hf, hueq⟩ := hprov
      obtain ⟨hns, hhr⟩ := anchorPasses_shape kv.1 am.1 (anchorFresh_passes kv.1 am hf)
      exact ⟨am, ham, hf, hueq, hns, hhr⟩

/-- Witness for C4 on the concrete fresh widget document. -/
theorem matched_urls_from_passing_anchors_witness :
    search_for_products (widgetDoc "5 שעות") ["widget"] =
      .ok (some [("widget", ["http://x/1"])]) ∧
    ∃ am ∈ findAll (widgetDoc "5 שעות"),
      anchorFresh "widget" am = true ∧ "http://x/1" = am.1.getAttr "href" ∧
      am.1.nodeString ≠ none ∧ am.1.getAttr "href" ≠ "" :=
  ⟨rfl,
   matched_urls_from_passing_anchors (widgetDoc "5 שעות") ["widget"]
     [("widget", ["http://x/1"])] rfl
     ("widget", ["http://x/1"]) (by simp) "http://x/1" (by simp)⟩

/-- C5: whenever the double loop completes without a structural error, the
matcher returns the "no matches" sentinel exactly when no keyword/anchor
pair satisfies both the pass-test and the freshness test; a returned
mapping is never empty and each of its link lists is non-empty. -/
theorem search_result_classification (root : Node) (products : List String)
    (m0 : MatchSet)
    (hfold : foldProducts (findAll root) (products.map pyLower) [] = .ok m0) :
    (search_for_products root products = .ok none ↔
      ∀ p ∈ products, ∀ am ∈ findAll root, anchorFresh (pyLower p) am = false) ∧
    (∀ m, search_for_products root products = .ok (some m) →
      m ≠ [] ∧ ∀ kv ∈ m, kv.2 ≠ []) := by
  have hsearch : search_for_products root products =
      .ok (if m0.isEmpty then none else some m0) := by
    unfold search_for_products
    rw [hfold]
  constructor
  · constructor
    · intro hnone p hp am ham
      by_contra hfr
      rw [Bool.not_eq_false] at hfr
      have hkey : pyLower p ∈ keysOf m0 :=
        foldProducts_gains_key (findAll root) (pyLower p) (products.map pyLower) [] m0
          hfold (List.mem_map.mpr ⟨p, hp, rfl⟩) ⟨am, ham, hfr⟩
      have hne : m0 ≠ [] := by
        intro he
        rw [he] at hkey
        exact absurd hkey (List.not_mem_nil _)
      have hempf : m0.isEmpty = false := by
        cases m0 with
        | nil => exact absurd rfl hne
        | cons a l => rfl
      rw [hempf] at hsearch
      rw [hsearch] at hnone
      simp at hnone
    · intro hall
      have hm0 : m0 = [] := by
        refine foldProducts_nochange (findAll root) (products.map pyLower) [] m0 hfold ?_
        intro q hq am ham
        obtain ⟨p, hp, rfl⟩ := List.mem_map.mp hq
        exact hall p hp am ham
      subst hm0
      simpa using hsearch
  · intro m hm
    rw [hsearch] at hm
    by_cases hemp : m0.isEmpty = true
    · rw [if_pos hemp] at hm
      cases hm
    · rw [if_neg hemp] at hm
      simp only [Except.ok.injEq, Option.some.injEq] at hm
      subst hm
      constructor
      · intro he
        rw [he] at hemp
        exact hemp rfl
      · exact foldProducts_vals (findAll root) (products.map pyLower) [] m0 hfold (by simp)

/-- Witness for C5 on the concrete fresh widget document. -/
theorem search_result_classification_witness :
    foldProducts (findAll (widgetDoc "5 שעות")) (["widget"].map pyLower) [] =
      .ok [("widget", ["http://x/1"])] ∧
    ((search_for_products (widgetDoc "5 שעות") ["widget"] = .ok none ↔
      ∀ p ∈ ["widget"], ∀ am ∈ findAll (widgetDoc "5 שעות"),
        anchorFresh (pyLower p) am = false) ∧
    (∀ m, search_for_products (widgetDoc "5 שעות") ["widget"] = .ok (some m) →
      m ≠ [] ∧ ∀ kv ∈ m, kv.2 ≠ [])) :=
  ⟨rfl, search_result_classification (widgetDoc "5 שעות") ["widget"]
    [("widget", ["http://x/1"])] rfl⟩

/-- C7 (amended): provided the lowercased keyword list has no duplicates,
every group of a returned match set holds exactly the hrefs of the anchors
matching its keyword, in document order. -/
theorem group_is_hrefs_in_document_order (root : Node) (products : List String)
    (m : MatchSet) (hnd : (products.map pyLower).Nodup)
    (h : search_for_products root products = .ok (some m)) :
    ∀ kv ∈ m, kv.2 = freshHrefs kv.1 (findAll root) := by
  cases hfold : foldProducts (findAll root) (products.map pyLower) [] with
  | error e =>
    have hs : search_for_products root products = .error e := by
      unfold search_for_products
      rw [hfold]
    rw [hs] at h
    cases h
  | ok m0 =>
    have hsearch : search_for_products root products =
        .ok (if m0.isEmpty then none else some m0) := by
      unfold search_for_products
      rw [hfold]
    rw [hsearch] at h
    by_cases hemp : m0.isEmpty = true
    · rw [if_pos hemp] at h
      cases h
    · rw [if_neg hemp] at h
      simp only [Except.ok.injEq, Option.some.injEq] at h
      subst h
      have hchar := foldProducts_characterize (findAll root) (products.map pyLower) [] m0
        (by simp [keysOf]) hnd hfold
      intro kv hkv
      rw [hchar] at hkv
      simp only [List.nil_append, List.mem_map] at hkv
      obtain ⟨p, _, hkveq⟩ := hkv
      rw [← hkveq]

/-- Witness for C7 on the concrete TV document with a duplicate-free list. -/
theorem group_is_hrefs_in_document_order_witness :
    (["tv"].map pyLower).Nodup ∧
    search_for_products tvDoc ["tv"] = .ok (some [("tv", ["http://a"])]) ∧
    (["http://a"] : List String) = freshHrefs "tv" (findAll tvDoc) :=
  ⟨by simp, rfl,
   group_is_hrefs_in_document_order tvDoc ["tv"] [("tv", ["http://a"])] (by simp) rfl
     ("tv", ["http://a"]) (by simp)⟩

/-- C8 (amended): the composed email's subject is exactly
`"SmartBuy products alert! (<keywords>)"` with the matched keywords
title-cased and comma-joined, and the body mentions every matched keyword
together with each of its matched links. -/
theorem compose_message_structure (products : MatchSet) :
    composeSubject products =
      "SmartBuy products alert! ("
        ++ joinStr ", " ((products.map Prod.fst).map pyTitle) ++ ")" ∧
    ∀ kv ∈ products, strIn kv.1 (composeBody products) = true ∧
      ∀ u ∈ kv.2, strIn u (composeBody products) = true := by
  have hbody : ∀ (ms : MatchSet), ∀ kv ∈ ms,
      strIn kv.1 (composeBodyEntries ms) = true ∧
      ∀ u ∈ kv.2, strIn u (composeBodyEntries ms) = true := by
    intro ms
    induction ms with
    | nil => intro kv hkv; cases hkv
    | cons kv0 rest ih =>
      obtain ⟨key, links⟩ := kv0
      intro kv hkv
      rcases List.mem_cons.mp hkv with rfl | htail
      · constructor
        · exact strIn_append_right _ _ _ (strIn_append_right _ _ _
            (strIn_append_right _ _ _ (strIn_append_right _ _ _
              (strIn_append_right _ _ _ (strIn_append_left _ _ _ (strIn_refl key))))))
        · intro u hu
          exact strIn_append_right _ _ _ (strIn_append_right _ _ _
            (strIn_append_left _ _ _ (strIn_joinStr_of_mem " , " u links hu)))
      · exact ⟨strIn_append_left _ _ _ (ih kv htail).1,
          fun u hu => strIn_append_left _ _ _ ((ih kv htail).2 u hu)⟩
  constructor
  · unfold composeSubject
    rw [pyTitle_joinStr]
  · intro kv hkv
    exact ⟨strIn_append_left _ _ _ (hbody products kv hkv).1,
      fun u hu => strIn_append_left _ _ _ ((hbody products kv hkv).2 u hu)⟩

/-- Witness for C8 on the concrete one-entry match set. -/
theorem compose_message_structure_witness :
    composeSubject [("tv", ["http://a"])] =
      "SmartBuy products alert! ("
        ++ joinStr ", " (([(("tv" : String), ["http://a"])].map Prod.fst).map pyTitle)
        ++ ")" ∧
    strIn "tv" (composeBody [("tv", ["http://a"])]) = true ∧
    strIn "http://a" (composeBody [("tv", ["http://a"])]) = true :=
  ⟨(compose_message_structure [("tv", ["http://a"])]).1,
   ((compose_message_structure [("tv", ["http://a"])]).2 ("tv", ["http://a"]) (by simp)).1,
   ((compose_message_structure [("tv", ["http://a"])]).2 ("tv", ["http://a"]) (by simp)).2
     "http://a" (by simp)⟩

end SmartBuy
